import Mathlib

/-!
Verification of the markdown tokenizer in `src/markdown_asset.rs` of the
`bevy-markdown` repository.

The Rust parser is embedded shallowly:
* Rust `String` is Lean `String`; the string operations the parser uses
  (`is_empty`, `trim`, `ends_with`) are given explicit structural
  definitions over the character list so that proofs and kernel
  evaluation go through (whitespace is modelled as ASCII whitespace,
  matching the characters relevant to the parser's inputs).
* The per-line I/O result `io::Result<String>` becomes
  `Except IoErr String`; the input stream is a finite list of such
  results, matching the `lines()` iterator consumed in order.
* `Vec<MarkdownElement>` becomes `List MarkdownElement`; `push` appends
  at the end.
* The `Result<_, MarkdownParseError>` return types are kept, even though
  `parse_text` and `parse_empty_line` only ever return `Ok`.
-/

deriving instance DecidableEq for Except

namespace BevyMarkdown

/-- Models `std::io::Error`: an opaque I/O failure cause. -/
structure IoErr where
  msg : String
deriving DecidableEq, Repr

/-- Models `Handle<Image>`: an opaque asset handle, never inspected by
the parser. -/
structure ImageHandle where
  id : Nat
deriving DecidableEq, Repr

/-- `type HeadingLevel = u16` — the level of a heading set with amount
of `#`. No arithmetic is performed on it, so overflow never matters. -/
abbrev HeadingLevel := Nat

/-- `enum MarkdownTextStyle` from `markdown_asset.rs`. -/
inductive MarkdownTextStyle where
  | Standard
  | Bold
  | Italic
  | Link (target : String) (title : Option String)
  | Code
deriving DecidableEq, Repr

/-- `struct MarkdownText { style, text }` from `markdown_asset.rs`. -/
structure MarkdownText where
  style : MarkdownTextStyle
  text : String
deriving DecidableEq, Repr

/-- `enum MarkdownElement` from `markdown_asset.rs`. -/
inductive MarkdownElement where
  | Text (t : MarkdownText)
  | Heading (t : MarkdownText) (level : HeadingLevel)
  | HorizontalRule
  | Image (alt_text : String) (image : ImageHandle)
  | OrderedListItem (t : MarkdownText)
  | UnorderedListItem (t : MarkdownText)
  | CodeBlock (s : String)
  | LineBreak
deriving DecidableEq, Repr

/-- `enum MarkdownParseError` from `markdown_asset.rs`: its only variant
wraps the underlying I/O error (`#[from] std::io::Error`). -/
inductive MarkdownParseError where
  | Io (e : IoErr)
deriving DecidableEq, Repr

/-- Rust `String::is_empty`. -/
def strIsEmpty (s : String) : Bool :=
  s.data == []

/-- Whitespace as used by Rust `str::trim`, restricted to ASCII. -/
def wsChar (c : Char) : Bool :=
  c == ' ' || c == '\t' || c == '\n' || c == '\r'

/-- Rust `str::trim`: remove leading and trailing whitespace. -/
def strTrim (s : String) : String :=
  ⟨((s.data.dropWhile wsChar).reverse.dropWhile wsChar).reverse⟩

/-- Rust `str::ends_with` for a string pattern. -/
def strEndsWith (s t : String) : Bool :=
  s.data.reverse.take t.data.length == t.data.reverse

/-- `fn parse_text` from `markdown_asset.rs`: push a `Standard` text run
with the trimmed line unless the line is `""`, then push a `LineBreak`
if the line ends with two spaces. -/
def parse_text (line : String) (output : List MarkdownElement) :
    Except MarkdownParseError (List MarkdownElement) :=
  let output :=
    if line ≠ "" then
      output ++ [MarkdownElement.Text ⟨MarkdownTextStyle.Standard, strTrim line⟩]
    else output
  let output :=
    if strEndsWith line "  " then output ++ [MarkdownElement.LineBreak]
    else output
  Except.ok output

/-- `fn parse_empty_line` from `markdown_asset.rs`: count the trailing
`LineBreak` run (looking back at most 2 elements), then push
`2 - counted` further `LineBreak`s. -/
def parse_empty_line (_line : String) (output : List MarkdownElement) :
    Except MarkdownParseError (List MarkdownElement) :=
  let line_breaks :=
    ((output.reverse.take 2).takeWhile
      (fun e => e == MarkdownElement.LineBreak)).length
  Except.ok (output ++ List.replicate (2 - line_breaks) MarkdownElement.LineBreak)

/-- The `while let Some(line) = lines.next()` loop of `parse_markdown`,
with the accumulated output made explicit. -/
def parseLoop :
    List (Except IoErr String) → List MarkdownElement →
    Except MarkdownParseError (List MarkdownElement)
  | [], output => Except.ok output
  | r :: rest, output =>
    match r with
    | Except.error e => Except.error (MarkdownParseError.Io e)
    | Except.ok line =>
      match (if !strIsEmpty line then parse_text line output
             else parse_empty_line line output) with
      | Except.ok output => parseLoop rest output
      | Except.error e => Except.error e

/-- `async fn parse_markdown` from `markdown_asset.rs`: entry point for
the parsing of the markdown text. -/
def parse_markdown (lines : List (Except IoErr String)) :
    Except MarkdownParseError (List MarkdownElement) :=
  parseLoop lines []

/-! ### Basic list facts -/

/-- Appending one element on the right is injective in both parts. -/
lemma snoc_inj {α : Type} {l l' : List α} {a b : α}
    (h : l ++ [a] = l' ++ [b]) : l = l' ∧ a = b := by
  have hl : l.length = l'.length := by
    have := congrArg List.length h
    simp at this
    omega
  have := List.append_inj h hl
  refine ⟨this.1, ?_⟩
  simpa using this.2

/-! ### Trailing line-break runs -/

/-- Length of the leading run of `LineBreak` elements. -/
def leadLB : List MarkdownElement → Nat
  | [] => 0
  | e :: rest => if e = MarkdownElement.LineBreak then leadLB rest + 1 else 0

/-- Length of the trailing run of `LineBreak` elements: the quantity the
blank-line normalizer is specified to control. -/
def trailingLB (l : List MarkdownElement) : Nat :=
  leadLB l.reverse

@[simp] lemma leadLB_nil : leadLB [] = 0 := rfl

@[simp] lemma leadLB_cons_LB (l : List MarkdownElement) :
    leadLB (MarkdownElement.LineBreak :: l) = leadLB l + 1 := by
  simp [leadLB]

lemma leadLB_cons_ne {e : MarkdownElement} (he : e ≠ MarkdownElement.LineBreak)
    (l : List MarkdownElement) : leadLB (e :: l) = 0 := by
  simp [leadLB, he]

lemma leadLB_replicate_append (k : Nat) (l : List MarkdownElement) :
    leadLB (List.replicate k MarkdownElement.LineBreak ++ l) = k + leadLB l := by
  induction k with
  | zero => simp
  | succ n ih => simp [List.replicate_succ, ih]; omega

@[simp] lemma trailingLB_nil : trailingLB [] = 0 := rfl

lemma trailingLB_snoc_ne {e : MarkdownElement}
    (he : e ≠ MarkdownElement.LineBreak) (l : List MarkdownElement) :
    trailingLB (l ++ [e]) = 0 := by
  simp [trailingLB, leadLB_cons_ne he]

lemma trailingLB_append_replicate (l : List MarkdownElement) (k : Nat) :
    trailingLB (l ++ List.replicate k MarkdownElement.LineBreak)
      = trailingLB l + k := by
  simp [trailingLB, List.reverse_append, List.reverse_replicate,
    leadLB_replicate_append]
  omega

lemma trailingLB_snoc_LB (l : List MarkdownElement) :
    trailingLB (l ++ [MarkdownElement.LineBreak]) = trailingLB l + 1 := by
  have := trailingLB_append_replicate l 1
  simpa using this

/-- The look-back count computed by `parse_empty_line` equals the
trailing-run length capped at 2. -/
lemma count2_eq_min (l : List MarkdownElement) :
    ((l.take 2).takeWhile (fun e => e == MarkdownElement.LineBreak)).length
      = min (leadLB l) 2 := by
  match l with
  | [] => simp
  | [a] =>
    by_cases h : a = MarkdownElement.LineBreak
    · subst h; simp [List.takeWhile]
    · have h' : (a == MarkdownElement.LineBreak) = false := beq_eq_false_iff_ne.mpr h
      simp [List.takeWhile, leadLB_cons_ne h, h']
  | a :: b :: rest =>
    by_cases ha : a = MarkdownElement.LineBreak
    · by_cases hb : b = MarkdownElement.LineBreak
      · subst ha; subst hb
        simp [List.takeWhile]
      · subst ha
        have hb' : (b == MarkdownElement.LineBreak) = false := beq_eq_false_iff_ne.mpr hb
        simp [List.takeWhile, leadLB_cons_ne hb, hb']
    · have ha' : (a == MarkdownElement.LineBreak) = false := beq_eq_false_iff_ne.mpr ha
      simp [List.takeWhile, leadLB_cons_ne ha, ha']

/-! ### Characterizations of the two line handlers -/

/-- `strIsEmpty` agrees with equality to the empty string. -/
lemma strIsEmpty_false_iff (s : String) : strIsEmpty s = false ↔ s ≠ "" := by
  have hempty : ("" : String) = ⟨[]⟩ := rfl
  cases s with
  | mk data =>
    unfold strIsEmpty
    rw [beq_eq_false_iff_ne]
    constructor
    · intro h hs
      rw [hempty] at hs
      exact h (congrArg String.data hs)
    · intro h hd
      apply h
      rw [hempty]
      exact congrArg String.mk hd

/-- What `parse_empty_line` appends, in closed form. -/
lemma parse_empty_line_eq (line : String) (output : List MarkdownElement) :
    parse_empty_line line output
      = Except.ok (output ++
          List.replicate (2 - min (trailingLB output) 2) MarkdownElement.LineBreak) := by
  unfold parse_empty_line
  rw [count2_eq_min]
  rfl

/-- After `parse_empty_line`, a tail of at most two trailing breaks is
topped up to exactly two. -/
lemma parse_empty_line_trailing {line : String} {output out' : List MarkdownElement}
    (h2 : trailingLB output ≤ 2)
    (h : parse_empty_line line output = Except.ok out') :
    trailingLB out' = 2 ∧
      out' = output ++
        List.replicate (2 - trailingLB output) MarkdownElement.LineBreak := by
  rw [parse_empty_line_eq] at h
  have hmin : min (trailingLB output) 2 = trailingLB output := by omega
  rw [hmin] at h
  injection h with h
  subst h
  refine ⟨?_, rfl⟩
  rw [trailingLB_append_replicate]
  omega

/-- What `parse_text` appends for a non-empty line, in closed form. -/
lemma parse_text_eq (line : String) (output : List MarkdownElement)
    (h : line ≠ "") :
    parse_text line output
      = Except.ok (output ++
          [MarkdownElement.Text ⟨MarkdownTextStyle.Standard, strTrim line⟩]
          ++ (if strEndsWith line "  " then [MarkdownElement.LineBreak] else [])) := by
  unfold parse_text
  by_cases he : strEndsWith line "  " <;> simp [h, he]

/-! ### Absence of triple line breaks -/

/-- Three consecutive `LineBreak` elements occur somewhere in the list. -/
def HasThreeLB (l : List MarkdownElement) : Prop :=
  ∃ l1 l2, l = l1 ++ MarkdownElement.LineBreak :: MarkdownElement.LineBreak ::
    MarkdownElement.LineBreak :: l2

lemma not_hasThreeLB_nil : ¬ HasThreeLB [] := by
  rintro ⟨l1, l2, h⟩
  cases l1 <;> simp at h

/-- Appending one element cannot create a triple break unless the element
is a break landing on a tail that already has two. -/
lemma not_hasThreeLB_snoc {out : List MarkdownElement} {e : MarkdownElement}
    (h3 : ¬ HasThreeLB out)
    (he : e = MarkdownElement.LineBreak → trailingLB out ≤ 1) :
    ¬ HasThreeLB (out ++ [e]) := by
  rintro ⟨l1, l2, heq⟩
  rcases List.eq_nil_or_concat l2 with rfl | ⟨l2', x, rfl⟩
  · have heq' : out ++ [e]
        = (l1 ++ [MarkdownElement.LineBreak, MarkdownElement.LineBreak])
          ++ [MarkdownElement.LineBreak] := by
      rw [heq]; simp
    obtain ⟨rfl, rfl⟩ := snoc_inj heq'
    have ht : trailingLB (l1 ++ [MarkdownElement.LineBreak, MarkdownElement.LineBreak])
        = trailingLB l1 + 2 := by
      have := trailingLB_append_replicate l1 2
      simpa using this
    have := he rfl
    omega
  · have heq' : out ++ [e]
        = (l1 ++ MarkdownElement.LineBreak :: MarkdownElement.LineBreak ::
            MarkdownElement.LineBreak :: l2') ++ [x] := by
      rw [heq]; simp
    obtain ⟨rfl, rfl⟩ := snoc_inj heq'
    exact h3 ⟨l1, l2', rfl⟩

/-! ### The output invariant maintained by the parsing loop -/

/-- Shape of every element the current parser can emit: a `Standard`
text run or a `LineBreak`. -/
def ElemOk (e : MarkdownElement) : Prop :=
  (∃ t, e = MarkdownElement.Text ⟨MarkdownTextStyle.Standard, t⟩) ∨
    e = MarkdownElement.LineBreak

/-- Invariant of the accumulated output: at most two trailing breaks,
no triple break anywhere, and only `Standard` text or breaks. -/
def Inv (out : List MarkdownElement) : Prop :=
  trailingLB out ≤ 2 ∧ ¬ HasThreeLB out ∧ ∀ e ∈ out, ElemOk e

lemma Inv_nil : Inv [] :=
  ⟨by simp, not_hasThreeLB_nil, by simp⟩

lemma Inv_parse_text {line : String} {out out' : List MarkdownElement}
    (hline : line ≠ "") (hI : Inv out)
    (h : parse_text line out = Except.ok out') :
    Inv out' ∧ trailingLB out' ≤ 1 := by
  obtain ⟨ht, h3, hel⟩ := hI
  rw [parse_text_eq line out hline] at h
  injection h with h
  subst h
  have hTextNe :
      MarkdownElement.Text ⟨MarkdownTextStyle.Standard, strTrim line⟩
        ≠ MarkdownElement.LineBreak := fun hx => MarkdownElement.noConfusion hx
  have hmid_tr : trailingLB
      (out ++ [MarkdownElement.Text ⟨MarkdownTextStyle.Standard, strTrim line⟩]) = 0 :=
    trailingLB_snoc_ne hTextNe out
  have hmid_3 : ¬ HasThreeLB
      (out ++ [MarkdownElement.Text ⟨MarkdownTextStyle.Standard, strTrim line⟩]) :=
    not_hasThreeLB_snoc h3 (fun hx => absurd hx hTextNe)
  have hmid_el : ∀ e ∈
      out ++ [MarkdownElement.Text ⟨MarkdownTextStyle.Standard, strTrim line⟩],
      ElemOk e := by
    intro e hme
    rcases List.mem_append.mp hme with hme | hme
    · exact hel e hme
    · simp at hme
      subst hme
      exact Or.inl ⟨_, rfl⟩
  by_cases he : strEndsWith line "  " = true
  · rw [if_pos he]
    refine ⟨⟨?_, ?_, ?_⟩, ?_⟩
    · rw [trailingLB_snoc_LB, hmid_tr]; omega
    · exact not_hasThreeLB_snoc hmid_3 (fun _ => by rw [hmid_tr]; omega)
    · intro e hme
      rcases List.mem_append.mp hme with hme | hme
      · exact hmid_el e hme
      · simp at hme
        subst hme
        exact Or.inr rfl
    · rw [trailingLB_snoc_LB, hmid_tr]
  · rw [if_neg he]
    rw [List.append_nil]
    exact ⟨⟨by omega, hmid_3, hmid_el⟩, by omega⟩

lemma Inv_parse_empty {line : String} {out out' : List MarkdownElement}
    (hI : Inv out)
    (h : parse_empty_line line out = Except.ok out') :
    Inv out' ∧ trailingLB out' = 2 := by
  obtain ⟨ht, h3, hel⟩ := hI
  obtain ⟨htr', heq⟩ := parse_empty_line_trailing ht h
  have hel' : ∀ e ∈ out', ElemOk e := by
    subst heq
    intro e hme
    rcases List.mem_append.mp hme with hme | hme
    · exact hel e hme
    · exact Or.inr (List.eq_of_mem_replicate hme)
  have h3' : ¬ HasThreeLB out' := by
    subst heq
    have h02 : trailingLB out = 0 ∨ trailingLB out = 1 ∨ trailingLB out = 2 := by
      omega
    rcases h02 with h0 | h1 | h2
    · rw [h0]
      have hrepl : List.replicate (2 - 0) MarkdownElement.LineBreak
          = [MarkdownElement.LineBreak] ++ [MarkdownElement.LineBreak] := rfl
      rw [hrepl, ← List.append_assoc]
      refine not_hasThreeLB_snoc (not_hasThreeLB_snoc h3 (fun _ => by omega))
        (fun _ => ?_)
      rw [trailingLB_snoc_LB, h0]
    · rw [h1]
      have hrepl : List.replicate (2 - 1) MarkdownElement.LineBreak
          = [MarkdownElement.LineBreak] := rfl
      rw [hrepl]
      exact not_hasThreeLB_snoc h3 (fun _ => by omega)
    · rw [h2]
      have hrepl : List.replicate (2 - 2) MarkdownElement.LineBreak
          = ([] : List MarkdownElement) := rfl
      rw [hrepl, List.append_nil]
      exact h3
  exact ⟨⟨by omega, h3', hel'⟩, htr'⟩

/-! ### Equations and invariants of the parsing loop -/

lemma parseLoop_nil (out : List MarkdownElement) :
    parseLoop [] out = Except.ok out := rfl

lemma parseLoop_cons_err (e : IoErr) (rest : List (Except IoErr String))
    (out : List MarkdownElement) :
    parseLoop (Except.error e :: rest) out
      = Except.error (MarkdownParseError.Io e) := rfl

lemma parseLoop_cons_ok (line : String) (rest : List (Except IoErr String))
    (out : List MarkdownElement) :
    parseLoop (Except.ok line :: rest) out
      = match (if !strIsEmpty line then parse_text line out
               else parse_empty_line line out) with
        | Except.ok o => parseLoop rest o
        | Except.error e => Except.error e := rfl

/-- Both line handlers always succeed. -/
lemma step_always_ok (line : String) (out : List MarkdownElement) :
    ∃ o', (if !strIsEmpty line then parse_text line out
           else parse_empty_line line out) = Except.ok o' := by
  by_cases hb : strIsEmpty line = true
  · rw [if_neg (by simp [hb])]
    exact ⟨_, rfl⟩
  · rw [if_pos (by simp [Bool.not_eq_true] at hb; simp [hb])]
    exact ⟨_, rfl⟩

/-- The loop processes a concatenation left to right. -/
lemma parseLoop_append (a b : List (Except IoErr String)) :
    ∀ out, parseLoop (a ++ b) out
      = match parseLoop a out with
        | Except.ok m => parseLoop b m
        | Except.error e => Except.error e := by
  induction a with
  | nil => intro out; rfl
  | cons r rest ih =>
    intro out
    cases r with
    | error e => rfl
    | ok line =>
      rw [List.cons_append, parseLoop_cons_ok, parseLoop_cons_ok]
      obtain ⟨o', ho'⟩ := step_always_ok line out
      rw [ho']
      exact ih o'

/-- The invariant is preserved along the whole loop. -/
lemma parseLoop_inv (lines : List (Except IoErr String)) :
    ∀ out out', Inv out → parseLoop lines out = Except.ok out' → Inv out' := by
  induction lines with
  | nil =>
    intro out out' hI h
    rw [parseLoop_nil] at h
    injection h with h
    subst h
    exact hI
  | cons r rest ih =>
    intro out out' hI h
    cases r with
    | error e => rw [parseLoop_cons_err] at h; exact absurd h (by simp)
    | ok line =>
      rw [parseLoop_cons_ok] at h
      by_cases hb : strIsEmpty line = true
      · rw [if_neg (by simp [hb])] at h
        rw [parse_empty_line_eq] at h
        have hI' := (Inv_parse_empty hI (parse_empty_line_eq line out)).1
        exact ih _ _ hI' h
      · have hb' : strIsEmpty line = false := by
          simpa [Bool.not_eq_true] using hb
        have hline : line ≠ "" := (strIsEmpty_false_iff line).mp hb'
        rw [if_pos (by simp [hb'])] at h
        rw [parse_text_eq line out hline] at h
        have hI' := (Inv_parse_text hline hI (parse_text_eq line out hline)).1
        exact ih _ _ hI' h

/-- A loop over error-free lines always succeeds. -/
lemma parseLoop_all_ok (lines : List (Except IoErr String)) :
    (∀ r ∈ lines, ∃ s, r = Except.ok s) →
    ∀ out, ∃ out', parseLoop lines out = Except.ok out' := by
  induction lines with
  | nil => intro _ out; exact ⟨out, rfl⟩
  | cons r rest ih =>
    intro hok out
    obtain ⟨s, rfl⟩ := hok r (List.mem_cons_self r rest)
    rw [parseLoop_cons_ok]
    obtain ⟨o', ho'⟩ := step_always_ok s out
    rw [ho']
    exact ih (fun x hx => hok x (List.mem_cons_of_mem _ hx)) o'

/-- The first failing line aborts the loop with the wrapped I/O error. -/
lemma parseLoop_err (pre : List (Except IoErr String)) (e : IoErr)
    (rest : List (Except IoErr String)) :
    (∀ r ∈ pre, ∃ s, r = Except.ok s) →
    ∀ out, parseLoop (pre ++ Except.error e :: rest) out
      = Except.error (MarkdownParseError.Io e) := by
  induction pre with
  | nil => intro _ out; rfl
  | cons r pre' ih =>
    intro hok out
    obtain ⟨s, rfl⟩ := hok r (List.mem_cons_self r pre')
    rw [List.cons_append, parseLoop_cons_ok]
    obtain ⟨o', ho'⟩ := step_always_ok s out
    rw [ho']
    exact ih (fun x hx => hok x (List.mem_cons_of_mem _ hx)) o'

/-- Processing a single blank line is exactly one `parse_empty_line`. -/
lemma parseLoop_single_blank (mid : List MarkdownElement) :
    parseLoop [Except.ok ""] mid = parse_empty_line "" mid := by
  rw [parseLoop_cons_ok]
  rw [if_neg (by decide)]
  rw [parse_empty_line_eq]
  rfl

/-! ### Claim theorems -/

/-- C1: immediately after the parser processes any blank source line, the
output element sequence ends with exactly 2 trailing consecutive
`LineBreak` elements, regardless of how many blank lines preceded it and
counting any `LineBreak` already at the tail toward that total. -/
theorem blank_line_yields_exactly_two_trailing_breaks
    (pre : List (Except IoErr String)) (out : List MarkdownElement)
    (h : parse_markdown (pre ++ [Except.ok ""]) = Except.ok out) :
    trailingLB out = 2 := by
  unfold parse_markdown at h
  rw [parseLoop_append] at h
  cases hm : parseLoop pre [] with
  | error e => rw [hm] at h; exact absurd h (by simp)
  | ok mid =>
    rw [hm] at h
    have h' : parseLoop [Except.ok ""] mid = Except.ok out := h
    rw [parseLoop_single_blank] at h'
    exact (Inv_parse_empty (parseLoop_inv pre [] mid Inv_nil hm) h').2

theorem blank_line_yields_exactly_two_trailing_breaks_witness :
    trailingLB [MarkdownElement.Text ⟨MarkdownTextStyle.Standard, "a"⟩,
      MarkdownElement.LineBreak, MarkdownElement.LineBreak] = 2 :=
  blank_line_yields_exactly_two_trailing_breaks [Except.ok "a"] _ (by decide)

/-- C2 (counterexample): an all-whitespace non-blank line does contribute
a `Text` element whose text is the empty string: the guard in
`parse_text` compares the untrimmed line with `""`, so `" "` passes it
and the trimmed (empty) text is pushed. -/
theorem empty_run_emitted_for_whitespace_line :
    parse_markdown [Except.ok " "]
      = Except.ok [MarkdownElement.Text ⟨MarkdownTextStyle.Standard, ""⟩] := by
  decide

/-- C2 (amended): for every non-blank source line the emitted run's text
equals the line with surrounding whitespace removed, but it may be the
empty string — an all-whitespace line still yields the (empty) run,
followed by a `LineBreak` exactly when the line ends in two spaces. -/
theorem text_run_is_trimmed_line (line : String) (out : List MarkdownElement)
    (h : line ≠ "") :
    parse_text line out
      = Except.ok (out ++
          [MarkdownElement.Text ⟨MarkdownTextStyle.Standard, strTrim line⟩]
          ++ (if strEndsWith line "  " then [MarkdownElement.LineBreak] else [])) :=
  parse_text_eq line out h

theorem text_run_is_trimmed_line_witness :
    parse_text " x " []
      = Except.ok ([] ++
          [MarkdownElement.Text ⟨MarkdownTextStyle.Standard, strTrim " x "⟩]
          ++ (if strEndsWith " x " "  " then [MarkdownElement.LineBreak] else [])) :=
  text_run_is_trimmed_line " x " [] (by decide)

/-- C3 (counterexample): heading syntax is not implemented; `"# H1"` is
parsed as an ordinary `Standard` text run, not as a `Heading` of level 1
followed by a `LineBreak`. -/
theorem hash_line_not_parsed_as_heading :
    parse_markdown [Except.ok "# H1"]
      = Except.ok [MarkdownElement.Text ⟨MarkdownTextStyle.Standard, "# H1"⟩]
    ∧ parse_markdown [Except.ok "# H1"]
      ≠ Except.ok [MarkdownElement.Heading ⟨MarkdownTextStyle.Standard, "H1"⟩ 1,
          MarkdownElement.LineBreak] := by
  decide

/-- C3 (amended): heading syntax is not implemented. For each level `n`
from 1 to 6, any line consisting of `n` `'#'` characters followed by a
whitespace character and further text parses to a single `Standard`
text run containing the whole trimmed line (hash marks included) and no
`Heading` element; the only `LineBreak` that can follow is the ordinary
hard-break one, present exactly when the line ends in two spaces. -/
theorem hash_line_yields_plain_text (n : Nat) (rest : List Char) (line : String)
    (h1 : 1 ≤ n) (h6 : n ≤ 6)
    (hline : line = ⟨List.replicate n '#' ++ rest⟩)
    (_hws : ∃ c cs, rest = c :: cs ∧ wsChar c = true) :
    parse_markdown [Except.ok line]
      = Except.ok
          ([MarkdownElement.Text ⟨MarkdownTextStyle.Standard, strTrim line⟩]
            ++ (if strEndsWith line "  " then [MarkdownElement.LineBreak] else []))
    ∧ ∀ t lvl, MarkdownElement.Heading t lvl
        ∉ ([MarkdownElement.Text ⟨MarkdownTextStyle.Standard, strTrim line⟩]
            ++ (if strEndsWith line "  " then [MarkdownElement.LineBreak] else [])) := by
  have hne : line ≠ "" := by
    rw [hline]
    intro hcon
    have hdata : List.replicate n '#' ++ rest = [] := congrArg String.data hcon
    have hrep := (List.append_eq_nil.mp hdata).1
    have hn : n = 0 := by simpa using hrep
    omega
  constructor
  · unfold parse_markdown
    rw [parseLoop_cons_ok]
    have hb : strIsEmpty line = false := (strIsEmpty_false_iff line).mpr hne
    rw [if_pos (by simp [hb])]
    rw [parse_text_eq line [] hne]
    by_cases he : strEndsWith line "  " = true
    · rw [if_pos he]
      rfl
    · rw [if_neg he]
      rfl
  · intro t lvl hmem
    by_cases he : strEndsWith line "  " = true
    · rw [if_pos he] at hmem
      simp at hmem
    · rw [if_neg he] at hmem
      simp at hmem

theorem hash_line_yields_plain_text_witness :
    parse_markdown [Except.ok "# H1"]
      = Except.ok
          ([MarkdownElement.Text ⟨MarkdownTextStyle.Standard, strTrim "# H1"⟩]
            ++ (if strEndsWith "# H1" "  " then [MarkdownElement.LineBreak] else []))
    ∧ ∀ t lvl, MarkdownElement.Heading t lvl
        ∉ ([MarkdownElement.Text ⟨MarkdownTextStyle.Standard, strTrim "# H1"⟩]
            ++ (if strEndsWith "# H1" "  " then [MarkdownElement.LineBreak] else [])) :=
  hash_line_yields_plain_text 1 [' ', 'H', '1'] "# H1" (by decide) (by decide)
    (by decide) ⟨' ', ['H', '1'], rfl, by decide⟩

/-- C4 (counterexample): code fences are not implemented; an opening
fence line followed by content yields two ordinary text runs and no
`CodeBlock` element. -/
theorem fence_not_parsed_as_code_block :
    parse_markdown [Except.ok "```", Except.ok "code"]
      = Except.ok [MarkdownElement.Text ⟨MarkdownTextStyle.Standard, "```"⟩,
          MarkdownElement.Text ⟨MarkdownTextStyle.Standard, "code"⟩]
    ∧ MarkdownElement.CodeBlock "code"
        ∉ [MarkdownElement.Text ⟨MarkdownTextStyle.Standard, "```"⟩,
            MarkdownElement.Text ⟨MarkdownTextStyle.Standard, "code"⟩] := by
  decide

/-- C4 (amended): the parser never produces a `CodeBlock` element for
any input, terminated fence or not. -/
theorem no_code_block_ever_emitted
    (lines : List (Except IoErr String)) (out : List MarkdownElement)
    (h : parse_markdown lines = Except.ok out) :
    ∀ s, MarkdownElement.CodeBlock s ∉ out := by
  intro s hmem
  rcases (parseLoop_inv lines [] out Inv_nil h).2.2 _ hmem with ⟨t, ht⟩ | ht
  · exact MarkdownElement.noConfusion ht
  · exact MarkdownElement.noConfusion ht

theorem no_code_block_ever_emitted_witness :
    MarkdownElement.CodeBlock "code"
      ∉ [MarkdownElement.Text ⟨MarkdownTextStyle.Standard, "```"⟩] :=
  no_code_block_ever_emitted [Except.ok "```"] _ (by decide) "code"

/-- C5: an I/O error on any line makes `parse_markdown` return an error
wrapping the underlying cause and no element sequence, while an input
with no failing line always parses to `Ok`. -/
theorem io_error_aborts_parse :
    (∀ lines : List (Except IoErr String),
      (∀ r ∈ lines, ∃ s, r = Except.ok s) →
      ∃ out, parse_markdown lines = Except.ok out) ∧
    (∀ (pre : List (Except IoErr String)) (e : IoErr)
        (rest : List (Except IoErr String)),
      (∀ r ∈ pre, ∃ s, r = Except.ok s) →
      parse_markdown (pre ++ Except.error e :: rest)
        = Except.error (MarkdownParseError.Io e)) :=
  ⟨fun lines hok => parseLoop_all_ok lines hok [],
   fun pre e rest hok => parseLoop_err pre e rest hok []⟩

theorem io_error_aborts_parse_witness :
    (∃ out, parse_markdown [Except.ok "a"] = Except.ok out) ∧
    parse_markdown [Except.ok "a", Except.error ⟨"disk"⟩, Except.ok "b"]
      = Except.error (MarkdownParseError.Io ⟨"disk"⟩) :=
  ⟨io_error_aborts_parse.1 [Except.ok "a"] (by simp),
   io_error_aborts_parse.2 [Except.ok "a"] ⟨"disk"⟩ [Except.ok "b"] (by simp)⟩

/-- C6: no output of `parse_markdown` ever contains three consecutive
`LineBreak` elements, whatever mix of blank lines and hard breaks the
input contains. -/
theorem no_three_consecutive_line_breaks
    (lines : List (Except IoErr String)) (out : List MarkdownElement)
    (h : parse_markdown lines = Except.ok out) : ¬ HasThreeLB out :=
  (parseLoop_inv lines [] out Inv_nil h).2.1

theorem no_three_consecutive_line_breaks_witness :
    ¬ HasThreeLB [MarkdownElement.LineBreak, MarkdownElement.LineBreak] :=
  no_three_consecutive_line_breaks
    [Except.ok "", Except.ok "", Except.ok ""] _ (by decide)

/-- C7: a non-blank line ending in two spaces makes `parse_text` append
its text run immediately followed by exactly one `LineBreak`. -/
theorem hard_break_emits_one_line_break (line : String)
    (out : List MarkdownElement)
    (h1 : line ≠ "") (h2 : strEndsWith line "  " = true) :
    parse_text line out
      = Except.ok (out ++
          [MarkdownElement.Text ⟨MarkdownTextStyle.Standard, strTrim line⟩,
            MarkdownElement.LineBreak]) := by
  rw [parse_text_eq line out h1, if_pos h2]
  simp

theorem hard_break_emits_one_line_break_witness :
    parse_text "a  " []
      = Except.ok ([] ++
          [MarkdownElement.Text ⟨MarkdownTextStyle.Standard, strTrim "a  "⟩,
            MarkdownElement.LineBreak]) :=
  hard_break_emits_one_line_break "a  " [] (by decide) (by decide)

/-- C8: the blank-line normalizer is idempotent — on an output already
ending in two `LineBreak`s, `parse_empty_line` appends nothing. -/
theorem parse_empty_line_idempotent_on_two_breaks (line : String)
    (out : List MarkdownElement) :
    parse_empty_line line
        (out ++ [MarkdownElement.LineBreak, MarkdownElement.LineBreak])
      = Except.ok
          (out ++ [MarkdownElement.LineBreak, MarkdownElement.LineBreak]) := by
  rw [parse_empty_line_eq]
  have ht : trailingLB
      (out ++ [MarkdownElement.LineBreak, MarkdownElement.LineBreak])
        = trailingLB out + 2 := by
    have := trailingLB_append_replicate out 2
    simpa using this
  rw [ht]
  have h0 : 2 - min (trailingLB out + 2) 2 = 0 := by omega
  rw [h0]
  simp

/-- C9: a single non-blank line without a trailing double space parses
to exactly one `Standard` text run holding the trimmed line. -/
theorem single_plain_line_yields_single_text (line : String)
    (h1 : line ≠ "") (h2 : strEndsWith line "  " = false) :
    parse_markdown [Except.ok line]
      = Except.ok [MarkdownElement.Text ⟨MarkdownTextStyle.Standard, strTrim line⟩] := by
  unfold parse_markdown
  rw [parseLoop_cons_ok]
  have hb : strIsEmpty line = false := (strIsEmpty_false_iff line).mpr h1
  rw [if_pos (by simp [hb])]
  rw [parse_text_eq line [] h1, h2]
  simp
  rfl

theorem single_plain_line_yields_single_text_witness :
    parse_markdown [Except.ok "hello world"]
      = Except.ok
          [MarkdownElement.Text ⟨MarkdownTextStyle.Standard, strTrim "hello world"⟩] :=
  single_plain_line_yields_single_text "hello world" (by decide) (by decide)

/-- C10: every element `parse_markdown` ever outputs is either a `Text`
run with `Standard` style or a `LineBreak`; no heading, rule, image,
list item, code block, or differently styled run is ever produced. -/
theorem output_elements_standard_text_or_break
    (lines : List (Except IoErr String)) (out : List MarkdownElement)
    (h : parse_markdown lines = Except.ok out) :
    ∀ e ∈ out,
      (∃ t, e = MarkdownElement.Text ⟨MarkdownTextStyle.Standard, t⟩) ∨
        e = MarkdownElement.LineBreak :=
  (parseLoop_inv lines [] out Inv_nil h).2.2

theorem output_elements_standard_text_or_break_witness :
    (∃ t, MarkdownElement.LineBreak
        = MarkdownElement.Text ⟨MarkdownTextStyle.Standard, t⟩) ∨
      MarkdownElement.LineBreak = MarkdownElement.LineBreak :=
  output_elements_standard_text_or_break [Except.ok "x  "]
    [MarkdownElement.Text ⟨MarkdownTextStyle.Standard, "x"⟩, MarkdownElement.LineBreak]
    (by decide) MarkdownElement.LineBreak (by decide)

end BevyMarkdown
